import Mathlib

/-!
Verification development for the makinilya text-interpolation engine.

The development shallowly embeds, over `List Char`:

* the `makinilya-text` parser (`MakinilyaText::parse` in
  `makinilya-text/src/lib.rs`).  The pest grammar file
  (`grammar/makinilya.pest`) is not among the sources, so the lexical
  rules are modelled from the specification (§4.1/§6): a text unit is a
  sequence of literal spans and `\x7b\x7b ws* dotted-path ws* \x7d\x7d`
  placeholder spans, `dotted-path := ident (. ident)*`,
  `ident := [A-Za-z_][A-Za-z0-9_]*`; a parse failure is anchored at the
  opener's 1-based line/column.  The model agrees with the crate's unit
  tests (`parser_tests` in `makinilya-text/src/lib.rs`).
* the context model (`Data`, `Context` in `makinilya-core/src/lib/context.rs`),
* the document tree (`Story` in `makinilya-core/src/lib/story.rs`),
* the interpolator (`StoryInterpolator::{check, interpolate,
  interpolate_expression}` in `makinilya-core/src/lib/interpolator.rs`).
-/

namespace Makinilya

/-- Whitespace admitted inside a placeholder around the dotted path. -/
def isWs (c : Char) : Bool :=
  c = ' ' || c = '\t' || c = '\n' || c = '\r'

/-- First character of an identifier component: `[A-Za-z_]`. -/
def isIdentStart (c : Char) : Bool :=
  c.isAlpha || c = '_'

/-- Continuation character of an identifier component: `[A-Za-z0-9_]`. -/
def isIdentTail (c : Char) : Bool :=
  isIdentStart c || c.isDigit

/-- A parse error: 1-based line and column of the failure point plus a
human-readable message (`Error::ParsingError` in `makinilya-text`). -/
structure ParseError where
  line : Nat
  col : Nat
  message : String
deriving Repr, DecidableEq

/-- One parsed segment of a text unit (an `expression` pair of the grammar):
either a literal span (`text_content`) or a placeholder
(`string_interpolation`).  A placeholder records its component path, the
dotted identifier span as written (`identifier.as_str()` in the source) and
the raw `\x7b\x7b ... \x7d\x7d` spelling of the whole span. -/
inductive Seg where
  | literal (text : List Char)
  | placeholder (path : List (List Char)) (ident : List Char) (raw : List Char)
deriving Repr, DecidableEq

/-- The full text span covered by a segment. -/
def Seg.text : Seg → List Char
  | .literal t => t
  | .placeholder _ _ raw => raw

/-- Recognize two consecutive copies of `c` and return the remainder. -/
def splitBraces (c : Char) : List Char → Option (List Char)
  | a :: b :: rest => if a = c && b = c then some rest else none
  | _ => none

/-- Consume one identifier component: a start character followed by the
longest run of continuation characters.  Returns the component and the
remainder; `none` when the input does not begin with a start character. -/
def takeIdent : List Char → Option (List Char × List Char)
  | [] => none
  | c :: cs =>
    if isIdentStart c then
      some (c :: cs.takeWhile isIdentTail, cs.dropWhile isIdentTail)
    else none

/-- Consume the `(. ident)*` tail of a dotted path.  Returns the extra
components, the consumed characters, and the remainder.  Fueled so that the
definition is structural; the callers always pass enough fuel. -/
def takeDotTail : Nat → List Char → List (List Char) × List Char × List Char
  | 0, cs => ([], [], cs)
  | _ + 1, [] => ([], [], [])
  | fuel + 1, c :: rest =>
    if c = '.' then
      match takeIdent rest with
      | some (ident, rest') =>
        let t := takeDotTail fuel rest'
        (ident :: t.1, '.' :: (ident ++ t.2.1), t.2.2)
      | none => ([], [], c :: rest)
    else ([], [], c :: rest)

/-- Parse the body of a placeholder, after the opening `\x7b\x7b`:
optional whitespace, a dotted identifier path, optional whitespace, and the
closing `\x7d\x7d`.  Returns the path components, the identifier span as
written, all consumed characters, and the remainder. -/
def parseBody (cs : List Char) :
    Option (List (List Char) × List Char × List Char × List Char) :=
  let ws1 := cs.takeWhile isWs
  let cs1 := cs.dropWhile isWs
  match takeIdent cs1 with
  | none => none
  | some (id1, cs2) =>
    let t := takeDotTail cs2.length cs2
    let ws2 := t.2.2.takeWhile isWs
    let cs4 := t.2.2.dropWhile isWs
    match splitBraces '\x7d' cs4 with
    | some rest =>
      some (id1 :: t.1, id1 ++ t.2.1,
        ws1 ++ ((id1 ++ t.2.1) ++ (ws2 ++ ['\x7d', '\x7d'])), rest)
    | none => none

/-- Consume a maximal literal span: characters up to (but not including)
the next `\x7b\x7b` opener. -/
def takeLit : List Char → List Char × List Char
  | [] => ([], [])
  | c :: cs =>
    if c = '\x7b' && cs.head? = some '\x7b' then ([], c :: cs)
    else
      let t := takeLit cs
      (c :: t.1, t.2)

/-- Advance a 1-based (line, column) position over one character. -/
def stepPos (c : Char) (p : Nat × Nat) : Nat × Nat :=
  if c = '\n' then (p.1 + 1, 1) else (p.1, p.2 + 1)

/-- Advance a 1-based (line, column) position over a span of characters. -/
def advancePos : List Char → Nat × Nat → Nat × Nat
  | [], p => p
  | c :: cs, p => advancePos cs (stepPos c p)

/-- The segment parser.  At each step, a `\x7b\x7b` opener must begin a
well-formed placeholder (otherwise the parse fails at the opener's
position); any other character starts a literal span running to the next
opener.  Fueled so that the definition is structural; `parse` supplies
`length + 1` fuel, which the fuel lemmas show is always enough. -/
def parseSegs : Nat → List Char → Nat × Nat → Except ParseError (List Seg)
  | 0, cs, p =>
    if cs.isEmpty then .ok [] else .error ⟨p.1, p.2, "expected expression"⟩
  | fuel + 1, cs, p =>
    match splitBraces '\x7b' cs with
    | some rest =>
      match parseBody rest with
      | some (path, ident, consumed, rest') =>
        let raw := '\x7b' :: '\x7b' :: consumed
        match parseSegs fuel rest' (advancePos raw p) with
        | .ok segs => .ok (.placeholder path ident raw :: segs)
        | .error e => .error e
      | none => .error ⟨p.1, p.2, "expected identifier"⟩
    | none =>
      match cs with
      | [] => .ok []
      | c :: cs' =>
        let t := takeLit (c :: cs')
        match parseSegs fuel t.2 (advancePos t.1 p) with
        | .ok segs => .ok (.literal t.1 :: segs)
        | .error e => .error e

/-- `MakinilyaText::parse`: parse a whole text unit into segments, or fail
with a located error. -/
def parse (source : List Char) : Except ParseError (List Seg) :=
  parseSegs (source.length + 1) source (1, 1)

mutual
/-- The context value type (`Data` in `makinilya-core/src/lib/context.rs`):
strings, 64-bit floats, booleans, and nested string-keyed objects.  The
`HashMap<String, Data>` payload of `Object` is modelled as an association
structure with first-match lookup. -/
inductive Data where
  | str (s : List Char)
  | num (x : Float)
  | boolean (b : Bool)
  | object (fields : Fields)
/-- The entries of an `Object` value. -/
inductive Fields where
  | nil
  | fcons (key : List Char) (val : Data) (rest : Fields)
end

/-- `HashMap::get` on an object's fields. -/
def Fields.get : Fields → List Char → Option Data
  | .nil, _ => none
  | .fcons k v rest, key => if k = key then some v else Fields.get rest key

/-- Whether a value is an `Object`. -/
def Data.isObject : Data → Bool
  | .object _ => true
  | _ => false

mutual
/-- `Data::to_string` (the `ToString` impl in `context.rs`): a string is
itself, a boolean is `true`/`false`, a number is the decimal rendering of
the float, and an object is the debug formatting of the underlying map.
The exact object text is implementation-defined in the source (hash-map
iteration order is unspecified); the model renders entries in stored
order.  No claim depends on the number or object branches. -/
def Data.render : Data → List Char
  | .str s => s
  | .num x => (toString x).data
  | .boolean b => (toString b).data
  | .object fields => '\x7b' :: (Fields.render fields ++ ['\x7d'])
/-- Debug rendering of object entries, in stored order. -/
def Fields.render : Fields → List Char
  | .nil => []
  | .fcons k v .nil => ('"' :: (k ++ ('"' :: ':' :: ' ' :: Data.render v)))
  | .fcons k v (.fcons k' v' rest) =>
    ('"' :: (k ++ ('"' :: ':' :: ' ' :: Data.render v))) ++
      (',' :: ' ' :: Fields.render (.fcons k' v' rest))
end

/-- The variable store (`Context` in `context.rs`): a root object-shaped
mapping from variable names to values.  The source field is named
`variables`, which is a reserved word in Lean, hence `vars`. -/
structure Context where
  vars : Fields

/-- The empty context. -/
def emptyContext : Context := ⟨.nil⟩

/-- The `while let` resolution loop of `interpolate_expression`
(`makinilya-core/src/lib/interpolator.rs`): starting from the value found
for the first component (possibly `none`), walk the remaining components.
When the current value is an `Object`, look the component up in it
(possibly turning the value into `none`); otherwise — faithfully to the
source's `_ => ()` arm — leave the current value unchanged. -/
def resolveTail : Option Data → List (List Char) → Option Data
  | data, [] => data
  | data, key :: rest =>
    resolveTail
      (match data with
       | some (Data.object fields) => fields.get key
       | other => other) rest

/-- Full path resolution: the first component is looked up in the
context's root mapping, the remaining components go through
`resolveTail`. -/
def resolvePath (ctx : Context) : List (List Char) → Option Data
  | [] => none
  | first :: rest => resolveTail (ctx.vars.get first) rest

/-- `interpolate_expression`: a literal is copied through; a placeholder
resolves its path and contributes the rendered value when one was found
and the empty string otherwise.  (The parser always produces a non-empty
path — `parse_path_nonempty` below — so the `[]` case is unreachable; the
source `unwrap`s there.) -/
def interpolateSeg (ctx : Context) : Seg → List Char
  | .literal t => t
  | .placeholder path _ _ =>
    match resolvePath ctx path with
    | some d => d.render
    | none => []

/-- Build-mode interpolation of one text unit (the per-content body of
`StoryInterpolator::interpolate`): parse, interpolate every expression,
and join the results. -/
def interpolateContent (source : List Char) (ctx : Context) :
    Except ParseError (List Char) :=
  match parse source with
  | .error e => .error e
  | .ok segs => .ok (segs.map (interpolateSeg ctx)).flatten

/-- The identifier span collected by check mode from one segment: the full
dotted path as written, for placeholders only. -/
def Seg.identOf : Seg → Option (List Char)
  | .literal _ => none
  | .placeholder _ ident _ => some ident

/-- Check mode on one text unit (the per-content body of
`StoryInterpolator::check`): parse and collect the identifier span of
every placeholder expression in order. -/
def checkContent (source : List Char) : Except ParseError (List (List Char)) :=
  match parse source with
  | .error e => .error e
  | .ok segs => .ok (segs.filterMap Seg.identOf)

mutual
/-- The document tree (`Story` in `makinilya-core/src/lib/story.rs`): a
title, an ordered list of sub-parts, and an ordered list of content
sources — two separate lists, as in the source struct. -/
inductive Story where
  | mk (title : List Char) (parts : Parts) (contents : List (List Char))
/-- The ordered sub-parts of a story node. -/
inductive Parts where
  | nil
  | pcons (part : Story) (rest : Parts)
end

/-- Title accessor (`Story::title`). -/
def Story.title : Story → List Char
  | .mk t _ _ => t

/-- Contents accessor (`Story::contents`). -/
def Story.contents : Story → List (List Char)
  | .mk _ _ cs => cs

/-- Parts accessor (`Story::parts`). -/
def Story.parts : Story → Parts
  | .mk _ ps _ => ps

/-- The `for content in story.contents()` loop of `check`: collect the
identifiers of every content source in order, aborting on the first parse
error. -/
def checkContentsList : List (List Char) → Except ParseError (List (List Char))
  | [] => .ok []
  | c :: cs =>
    match checkContent c with
    | .error e => .error e
    | .ok ids =>
      match checkContentsList cs with
      | .error e => .error e
      | .ok rest => .ok (ids ++ rest)

mutual
/-- `StoryInterpolator::check`: identifiers of the node's own contents (in
stored order) followed by the identifiers of its parts (in stored order);
the first parse error anywhere aborts the whole call. -/
def checkStory : Story → Except ParseError (List (List Char))
  | .mk _ parts contents =>
    match checkContentsList contents with
    | .error e => .error e
    | .ok ids =>
      match checkParts parts with
      | .error e => .error e
      | .ok ids' => .ok (ids ++ ids')
/-- The `for part in story.parts()` loop of `check`. -/
def checkParts : Parts → Except ParseError (List (List Char))
  | .nil => .ok []
  | .pcons p rest =>
    match checkStory p with
    | .error e => .error e
    | .ok ids =>
      match checkParts rest with
      | .error e => .error e
      | .ok ids' => .ok (ids ++ ids')
end

/-- The `for content in story.contents()` loop of `interpolate`:
interpolate every content source in order, aborting on the first parse
error. -/
def interpolateContentsList (contents : List (List Char)) (ctx : Context) :
    Except ParseError (List (List Char)) :=
  match contents with
  | [] => .ok []
  | c :: cs =>
    match interpolateContent c ctx with
    | .error e => .error e
    | .ok out =>
      match interpolateContentsList cs ctx with
      | .error e => .error e
      | .ok rest => .ok (out :: rest)

mutual
/-- `StoryInterpolator::interpolate`: build a fresh story with the same
title, the interpolated contents in stored order, then the interpolated
parts in stored order; the first parse error anywhere aborts the whole
call. -/
def interpolateStory : Story → Context → Except ParseError Story
  | .mk title parts contents, ctx =>
    match interpolateContentsList contents ctx with
    | .error e => .error e
    | .ok contents' =>
      match interpolateParts parts ctx with
      | .error e => .error e
      | .ok parts' => .ok (.mk title parts' contents')
/-- The `for part in story.parts()` loop of `interpolate`. -/
def interpolateParts : Parts → Context → Except ParseError Parts
  | .nil, _ => .ok .nil
  | .pcons p rest, ctx =>
    match interpolateStory p ctx with
    | .error e => .error e
    | .ok p' =>
      match interpolateParts rest ctx with
      | .error e => .error e
      | .ok rest' => .ok (.pcons p' rest')
end

mutual
/-- All content sources of a story, node-own contents first and then the
contents of the sub-parts, depth-first and left-to-right — the traversal
order of both `check` and `interpolate`. -/
def storyContents : Story → List (List Char)
  | .mk _ parts contents => contents ++ partsContents parts
/-- All content sources below a list of parts, depth-first. -/
def partsContents : Parts → List (List Char)
  | .nil => []
  | .pcons p rest => storyContents p ++ partsContents rest
end

/-- The spec's rendering of a placeholder path "as written": components
joined by single dots. -/
def renderPath : List (List Char) → List Char
  | [] => []
  | x :: xs => x ++ (xs.map (fun i => '.' :: i)).flatten

/-- The dotted path of a placeholder segment, rendered from its
components; `none` for a literal. -/
def Seg.pathIdent : Seg → Option (List Char)
  | .literal _ => none
  | .placeholder path _ _ => some (renderPath path)

/-- Specification-side identifier collection over a flat list of content
sources: for each source, the full dotted path (rendered from the
components, dots included) of every placeholder segment, in order,
duplicates preserved. -/
def specIdentsList : List (List Char) → Except ParseError (List (List Char))
  | [] => .ok []
  | src :: rest =>
    match parse src with
    | .error e => .error e
    | .ok segs =>
      match specIdentsList rest with
      | .error e => .error e
      | .ok ids => .ok (segs.filterMap Seg.pathIdent ++ ids)

/-- Whether a segment is a placeholder. -/
def Seg.isPlaceholder : Seg → Bool
  | .literal _ => false
  | .placeholder _ _ _ => true

/-- Specification-side count of placeholder segments over a flat list of
content sources. -/
def specPHCountList : List (List Char) → Except ParseError Nat
  | [] => .ok 0
  | src :: rest =>
    match parse src with
    | .error e => .error e
    | .ok segs =>
      match specPHCountList rest with
      | .error e => .error e
      | .ok n => .ok ((segs.filter Seg.isPlaceholder).length + n)

mutual
/-- Structural equality of two stories up to content sources: same titles,
same number of contents, and pairwise same-shaped parts. -/
def shapeEq : Story → Story → Bool
  | .mk t ps cs, .mk t' ps' cs' =>
    t == t' && cs.length == cs'.length && shapeEqParts ps ps'
/-- Pairwise `shapeEq` over part lists of equal length. -/
def shapeEqParts : Parts → Parts → Bool
  | .nil, .nil => true
  | .pcons p r, .pcons p' r' => shapeEq p p' && shapeEqParts r r'
  | _, _ => false
end

/-- Whether a text unit contains a `\x7b\x7b` placeholder opener. -/
def hasOpen : List Char → Bool
  | [] => false
  | c :: cs => (c = '\x7b' && cs.head? = some '\x7b') || hasOpen cs

/-- The literal text of a segment: literals verbatim, placeholders as the
empty span. -/
def Seg.litText : Seg → List Char
  | .literal t => t
  | .placeholder _ _ _ => []

/-- A well-formed identifier component: `[A-Za-z_][A-Za-z0-9_]*`. -/
def identComponentWF : List Char → Bool
  | [] => false
  | c :: cs => isIdentStart c && cs.all isIdentTail

/-- Well-formedness of a parsed segment: a placeholder's path is non-empty,
all its components are well-formed identifiers, and its recorded identifier
span is the path rendered with dots. -/
def Seg.wf : Seg → Bool
  | .literal _ => true
  | .placeholder path ident _ =>
    !path.isEmpty && path.all identComponentWF && (ident == renderPath path)

/-- Whether a text unit parses successfully. -/
def parseAccepts (src : List Char) : Bool :=
  match parse src with
  | .ok _ => true
  | .error _ => false

/-- The text unit `\x7b\x7b a.b \x7d\x7d`. -/
def srcAB : List Char :=
  ['\x7b', '\x7b', ' ', 'a', '.', 'b', ' ', '\x7d', '\x7d']

/-- The text unit `\x7b\x7b a.b.c \x7d\x7d`. -/
def srcABC : List Char :=
  ['\x7b', '\x7b', ' ', 'a', '.', 'b', '.', 'c', ' ', '\x7d', '\x7d']

/-- A context mapping the variable `a` to the string `"x"`. -/
def ctxAString : Context := ⟨.fcons ['a'] (.str ['x']) .nil⟩

/-- The text unit `\x7b\x7b x \x7d\x7d`. -/
def srcX : List Char := ['\x7b', '\x7b', ' ', 'x', ' ', '\x7d', '\x7d']

/-- The text unit `hi \x7b\x7b x \x7d\x7d!`. -/
def srcMixed : List Char := ['h', 'i', ' '] ++ srcX ++ ['!']

/-- The malformed text unit `\x7b\x7b \x7d\x7d`. -/
def srcBad : List Char := ['\x7b', '\x7b', ' ', '\x7d', '\x7d']

/-- The malformed text unit `\x7b\x7b 32 \x7d\x7d`. -/
def src32 : List Char :=
  ['\x7b', '\x7b', ' ', '3', '2', ' ', '\x7d', '\x7d']

/-- The malformed text unit `\x7b\x7b name..long \x7d\x7d`. -/
def srcDotsBad : List Char :=
  ['\x7b', '\x7b', ' ', 'n', 'a', 'm', 'e', '.', '.', 'l', 'o', 'n', 'g',
    ' ', '\x7d', '\x7d']

/-- The text unit `\x7b\x7b name32 \x7d\x7d`. -/
def srcName32 : List Char :=
  ['\x7b', '\x7b', ' ', 'n', 'a', 'm', 'e', '3', '2', ' ', '\x7d', '\x7d']

/-- The text unit `\x7b\x7b name_32 \x7d\x7d`. -/
def srcNameU32 : List Char :=
  ['\x7b', '\x7b', ' ', 'n', 'a', 'm', 'e', '_', '3', '2', ' ', '\x7d', '\x7d']

/-- The text unit `\x7b\x7b name_32.long \x7d\x7d`. -/
def srcNameU32Long : List Char :=
  ['\x7b', '\x7b', ' ', 'n', 'a', 'm', 'e', '_', '3', '2', '.', 'l', 'o',
    'n', 'g', ' ', '\x7d', '\x7d']

/-- The purely literal text unit `hi`. -/
def srcLit : List Char := ['h', 'i']

/-- A well-formed two-level story: root contents `hi \x7b\x7b x \x7d\x7d!`
and `hi`, one sub-part with content `\x7b\x7b x \x7d\x7d`. -/
def storyW : Story :=
  .mk ['r'] (.pcons (.mk ['p'] .nil [srcX]) .nil) [srcMixed, srcLit]

/-- The interpolation of `storyW` under the empty context. -/
def storyWOut : Story :=
  .mk ['r'] (.pcons (.mk ['p'] .nil [[]]) .nil)
    [['h', 'i', ' ', '!'], ['h', 'i']]

/-- A story whose only malformed content sits in a nested sub-part. -/
def storyBad : Story :=
  .mk ['r'] (.pcons (.mk ['p'] .nil [srcBad]) .nil) [srcLit]

theorem splitBraces_eq_some {c : Char} {cs rest : List Char}
    (h : splitBraces c cs = some rest) : cs = c :: c :: rest := by
  match cs with
  | [] => simp [splitBraces] at h
  | [a] => simp [splitBraces] at h
  | a :: b :: t =>
    simp only [splitBraces] at h
    split at h
    · rename_i hab
      simp only [Bool.and_eq_true, decide_eq_true_eq] at hab
      cases h
      simp [hab.1, hab.2]
    · exact absurd h (by simp)

theorem splitBraces_nil (c : Char) : splitBraces c [] = none := rfl

theorem takeIdent_append {cs i r : List Char} (h : takeIdent cs = some (i, r)) :
    i ++ r = cs := by
  match cs with
  | [] => simp [takeIdent] at h
  | c :: t =>
    simp only [takeIdent] at h
    split at h
    · cases h
      simp [List.takeWhile_append_dropWhile]
    · simp at h

theorem takeIdent_wf {cs i r : List Char} (h : takeIdent cs = some (i, r)) :
    identComponentWF i = true := by
  match cs with
  | [] => simp [takeIdent] at h
  | c :: t =>
    simp only [takeIdent] at h
    split at h
    · rename_i hs
      cases h
      simp only [identComponentWF, hs, Bool.true_and]
      exact List.all_eq_true.mpr fun x hx => List.mem_takeWhile_imp hx
    · simp at h

theorem takeDotTail_append (fuel : Nat) (cs : List Char) :
    (takeDotTail fuel cs).2.1 ++ (takeDotTail fuel cs).2.2 = cs := by
  induction fuel generalizing cs with
  | zero => simp [takeDotTail]
  | succ fuel ih =>
    match cs with
    | [] => simp [takeDotTail]
    | c :: rest =>
      simp only [takeDotTail]
      split
      · rename_i hc
        cases hr : takeIdent rest with
        | none => simp
        | some pr =>
          obtain ⟨ident, rest'⟩ := pr
          have happ := takeIdent_append hr
          simp only [hc, List.cons_append, List.append_assoc]
          rw [ih rest']
          simp [happ]
      · simp

theorem takeDotTail_wf (fuel : Nat) (cs : List Char) :
    (takeDotTail fuel cs).1.all identComponentWF = true ∧
      (takeDotTail fuel cs).2.1 =
        ((takeDotTail fuel cs).1.map (fun i => '.' :: i)).flatten := by
  induction fuel generalizing cs with
  | zero => simp [takeDotTail]
  | succ fuel ih =>
    match cs with
    | [] => simp [takeDotTail]
    | c :: rest =>
      simp only [takeDotTail]
      split
      · cases hr : takeIdent rest with
        | none => simp
        | some pr =>
          obtain ⟨ident, rest'⟩ := pr
          have hwf := takeIdent_wf hr
          have := ih rest'
          simp only [List.all_cons, hwf, Bool.true_and, List.map_cons,
            List.flatten_cons]
          exact ⟨this.1, by rw [this.2]; simp⟩
      · simp

theorem parseBody_append {cs : List Char}
    {path : List (List Char)} {ident consumed rest : List Char}
    (h : parseBody cs = some (path, ident, consumed, rest)) :
    consumed ++ rest = cs := by
  simp only [parseBody] at h
  cases hi : takeIdent (cs.dropWhile isWs) with
  | none => rw [hi] at h; simp at h
  | some pr =>
    obtain ⟨id1, cs2⟩ := pr
    rw [hi] at h
    simp only at h
    cases hs : splitBraces '\x7d'
        (((takeDotTail cs2.length cs2).2.2).dropWhile isWs) with
    | none => rw [hs] at h; simp at h
    | some rst =>
      rw [hs] at h
      simp only [Option.some.injEq, Prod.mk.injEq] at h
      obtain ⟨-, -, hcons, hrest⟩ := h
      have h1 := takeIdent_append hi
      have h2 := takeDotTail_append cs2.length cs2
      have h3 := splitBraces_eq_some hs
      have h4 : ((takeDotTail cs2.length cs2).2.2).takeWhile isWs ++
          ('\x7d' :: '\x7d' :: rst) = (takeDotTail cs2.length cs2).2.2 := by
        conv_rhs => rw [← List.takeWhile_append_dropWhile isWs
          (takeDotTail cs2.length cs2).2.2]
        rw [h3]
      rw [← hcons, ← hrest]
      calc (cs.takeWhile isWs ++
            ((id1 ++ (takeDotTail cs2.length cs2).2.1) ++
              (((takeDotTail cs2.length cs2).2.2).takeWhile isWs ++
                ['\x7d', '\x7d']))) ++ rst
          = cs.takeWhile isWs ++ (id1 ++ ((takeDotTail cs2.length cs2).2.1 ++
              (((takeDotTail cs2.length cs2).2.2).takeWhile isWs ++
                ('\x7d' :: '\x7d' :: rst)))) := by
            simp [List.append_assoc]
        _ = cs := by
            rw [h4, h2, h1]
            exact List.takeWhile_append_dropWhile isWs cs

theorem parseBody_wf {cs : List Char}
    {path : List (List Char)} {ident consumed rest : List Char}
    (h : parseBody cs = some (path, ident, consumed, rest)) :
    path ≠ [] ∧ path.all identComponentWF = true ∧ ident = renderPath path := by
  simp only [parseBody] at h
  cases hi : takeIdent (cs.dropWhile isWs) with
  | none => rw [hi] at h; simp at h
  | some pr =>
    obtain ⟨id1, cs2⟩ := pr
    rw [hi] at h
    simp only at h
    cases hs : splitBraces '\x7d'
        (((takeDotTail cs2.length cs2).2.2).dropWhile isWs) with
    | none => rw [hs] at h; simp at h
    | some rst =>
      rw [hs] at h
      simp only [Option.some.injEq, Prod.mk.injEq] at h
      obtain ⟨hpath, hident, -, -⟩ := h
      have hw1 := takeIdent_wf hi
      have hw2 := takeDotTail_wf cs2.length cs2
      subst hpath
      subst hident
      refine ⟨by simp, ?_, ?_⟩
      · simp [hw1, hw2.1]
      · simp [renderPath, hw2.2]

theorem takeLit_append (cs : List Char) :
    (takeLit cs).1 ++ (takeLit cs).2 = cs := by
  induction cs with
  | nil => simp [takeLit]
  | cons c t ih =>
    simp only [takeLit]
    split
    · simp
    · simpa using ih

theorem parseSegs_nil (fuel : Nat) (p : Nat × Nat) :
    parseSegs fuel [] p = .ok [] := by
  cases fuel with
  | zero => simp [parseSegs]
  | succ fuel => simp [parseSegs, splitBraces]

theorem parseSegs_text (fuel : Nat) :
    ∀ cs p segs, parseSegs fuel cs p = .ok segs →
      (segs.map Seg.text).flatten = cs := by
  induction fuel with
  | zero =>
    intro cs p segs h
    simp only [parseSegs] at h
    split at h
    · rename_i he
      cases h
      simp [List.isEmpty_iff.mp he]
    · exact Except.noConfusion h
  | succ fuel ih =>
    intro cs p segs h
    simp only [parseSegs] at h
    split at h
    · rename_i rest hsb
      split at h
      · rename_i path ident consumed rest' hbody
        split at h
        · rename_i segs' hrec
          cases h
          have := ih rest' _ segs' hrec
          simp only [List.map_cons, List.flatten_cons, Seg.text, this]
          have := parseBody_append hbody
          rw [splitBraces_eq_some hsb]
          simp [← this, List.append_assoc]
        · exact Except.noConfusion h
      · exact Except.noConfusion h
    · rename_i hsb
      split at h
      · cases h; rfl
      · rename_i c cs'
        split at h
        · rename_i segs' hrec
          cases h
          have := ih (takeLit (c :: cs')).2 _ segs' hrec
          simp only [List.map_cons, List.flatten_cons, Seg.text, this]
          exact takeLit_append (c :: cs')
        · exact Except.noConfusion h

theorem parseSegs_wf (fuel : Nat) :
    ∀ cs p segs, parseSegs fuel cs p = .ok segs →
      ∀ sg ∈ segs, sg.wf = true := by
  induction fuel with
  | zero =>
    intro cs p segs h
    simp only [parseSegs] at h
    split at h
    · cases h; simp
    · exact Except.noConfusion h
  | succ fuel ih =>
    intro cs p segs h
    simp only [parseSegs] at h
    split at h
    · split at h
      · rename_i path ident consumed rest' hbody
        split at h
        · rename_i segs' hrec
          cases h
          intro sg hsg
          rcases List.mem_cons.mp hsg with rfl | hmem
          · obtain ⟨h1, h2, h3⟩ := parseBody_wf hbody
            simp [Seg.wf, h1, h2, h3]
          · exact ih _ _ _ hrec sg hmem
        · exact Except.noConfusion h
      · exact Except.noConfusion h
    · split at h
      · cases h; simp
      · split at h
        · rename_i segs' hrec
          cases h
          intro sg hsg
          rcases List.mem_cons.mp hsg with rfl | hmem
          · simp [Seg.wf]
          · exact ih _ _ _ hrec sg hmem
        · exact Except.noConfusion h

theorem advancePos_pos (l : List Char) :
    ∀ p : Nat × Nat, 1 ≤ p.1 → 1 ≤ p.2 →
      1 ≤ (advancePos l p).1 ∧ 1 ≤ (advancePos l p).2 := by
  induction l with
  | nil => exact fun p h1 h2 => ⟨h1, h2⟩
  | cons c t ih =>
    intro p h1 h2
    simp only [advancePos]
    apply ih
    · simp only [stepPos]
      split
      · exact Nat.le_succ_of_le h1
      · exact h1
    · simp only [stepPos]
      split
      · exact le_refl 1
      · exact Nat.le_succ_of_le h2

theorem parseSegs_err (fuel : Nat) :
    ∀ cs p e, parseSegs fuel cs p = .error e → 1 ≤ p.1 → 1 ≤ p.2 →
      1 ≤ e.line ∧ 1 ≤ e.col ∧ e.message ≠ "" := by
  induction fuel with
  | zero =>
    intro cs p e h h1 h2
    simp only [parseSegs] at h
    split at h
    · exact Except.noConfusion h
    · cases h
      exact ⟨h1, h2, by simp⟩
  | succ fuel ih =>
    intro cs p e h h1 h2
    simp only [parseSegs] at h
    split at h
    · split at h
      · split at h
        · exact Except.noConfusion h
        · rename_i hrec
          cases h
          exact ih _ _ _ hrec (advancePos_pos _ p h1 h2).1
            (advancePos_pos _ p h1 h2).2
      · cases h
        exact ⟨h1, h2, by simp⟩
    · split at h
      · exact Except.noConfusion h
      · split at h
        · exact Except.noConfusion h
        · rename_i hrec
          cases h
          exact ih _ _ _ hrec (advancePos_pos _ p h1 h2).1
            (advancePos_pos _ p h1 h2).2

theorem hasOpen_splitBraces {cs : List Char} (h : hasOpen cs = false) :
    splitBraces '\x7b' cs = none := by
  match cs with
  | [] => rfl
  | [c] => rfl
  | a :: b :: t =>
    simp only [hasOpen, Bool.or_eq_false_iff] at h
    simp only [splitBraces]
    split
    · rename_i hab
      simp only [Bool.and_eq_true, decide_eq_true_eq] at hab
      obtain ⟨rfl, rfl⟩ := hab
      simp at h
    · rfl

theorem hasOpen_takeLit {cs : List Char} (h : hasOpen cs = false) :
    takeLit cs = (cs, []) := by
  induction cs with
  | nil => rfl
  | cons c t ih =>
    simp only [hasOpen, Bool.or_eq_false_iff] at h
    simp only [takeLit]
    rw [if_neg (by simpa using h.1), ih h.2]

theorem parse_noOpen {cs : List Char} (h : hasOpen cs = false) :
    parse cs = .ok (if cs.isEmpty then [] else [.literal cs]) := by
  unfold parse
  cases cs with
  | nil => simp [parseSegs_nil]
  | cons c t =>
    simp only [parseSegs, hasOpen_splitBraces h]
    rw [hasOpen_takeLit h]
    simp [splitBraces]

theorem resolveTail_none (ids : List (List Char)) :
    resolveTail none ids = none := by
  induction ids with
  | nil => rfl
  | cons i t ih => simpa [resolveTail] using ih

theorem resolveTail_nonObject {d : Data} (h : d.isObject = false)
    (ids : List (List Char)) : resolveTail (some d) ids = some d := by
  induction ids with
  | nil => rfl
  | cons i t ih =>
    cases d with
    | object fields => simp [Data.isObject] at h
    | str s => simpa [resolveTail] using ih
    | num x => simpa [resolveTail] using ih
    | boolean b => simpa [resolveTail] using ih

theorem interpolateSeg_empty (sg : Seg) :
    interpolateSeg emptyContext sg = sg.litText := by
  cases sg with
  | literal t => rfl
  | placeholder path ident raw =>
    cases path with
    | nil => rfl
    | cons first rest =>
      simp [interpolateSeg, Seg.litText, resolvePath, emptyContext,
        Fields.get, resolveTail_none]

theorem filterMap_identOf_eq_pathIdent {segs : List Seg}
    (h : ∀ sg ∈ segs, sg.wf = true) :
    segs.filterMap Seg.identOf = segs.filterMap Seg.pathIdent := by
  induction segs with
  | nil => rfl
  | cons sg t ih =>
    have hsg := h sg (by simp)
    have ht := ih fun x hx => h x (List.mem_cons_of_mem _ hx)
    cases sg with
    | literal l => simpa [List.filterMap_cons, Seg.identOf, Seg.pathIdent]
        using ht
    | placeholder path ident raw =>
      simp only [Seg.wf, Bool.and_eq_true, beq_iff_eq] at hsg
      simp [List.filterMap_cons, Seg.identOf, Seg.pathIdent, hsg.2, ht]

theorem filterMap_identOf_length (segs : List Seg) :
    (segs.filterMap Seg.identOf).length =
      (segs.filter Seg.isPlaceholder).length := by
  induction segs with
  | nil => rfl
  | cons sg t ih =>
    cases sg with
    | literal l =>
      simpa [List.filterMap_cons, List.filter_cons, Seg.identOf,
        Seg.isPlaceholder] using ih
    | placeholder path ident raw =>
      simpa [List.filterMap_cons, List.filter_cons, Seg.identOf,
        Seg.isPlaceholder] using ih

theorem checkContent_ids {src : List Char} {ids : List (List Char)}
    (h : checkContent src = .ok ids) :
    ∃ segs, parse src = .ok segs ∧ ids = segs.filterMap Seg.pathIdent ∧
      ids.length = (segs.filter Seg.isPlaceholder).length := by
  simp only [checkContent] at h
  cases hp : parse src with
  | error e => rw [hp] at h; exact Except.noConfusion h
  | ok segs =>
    rw [hp] at h
    simp only [Except.ok.injEq] at h
    subst h
    refine ⟨segs, rfl, ?_, filterMap_identOf_length segs⟩
    exact filterMap_identOf_eq_pathIdent
      (parseSegs_wf (src.length + 1) src (1, 1) segs hp)

theorem specIdentsList_append {xs ys : List (List Char)}
    {a b : List (List Char)}
    (hx : specIdentsList xs = .ok a) (hy : specIdentsList ys = .ok b) :
    specIdentsList (xs ++ ys) = .ok (a ++ b) := by
  induction xs generalizing a with
  | nil =>
    simp only [specIdentsList, Except.ok.injEq] at hx
    subst hx
    simpa using hy
  | cons x t ih =>
    simp only [specIdentsList] at hx ⊢
    cases hp : parse x with
    | error e => rw [hp] at hx; exact Except.noConfusion hx
    | ok segs =>
      rw [hp] at hx
      simp only at hx
      cases ht : specIdentsList t with
      | error e => rw [ht] at hx; exact Except.noConfusion hx
      | ok ids =>
        rw [ht] at hx
        simp only [Except.ok.injEq] at hx
        subst hx
        simp only [List.append_eq]
        rw [ih ht]
        simp [List.append_assoc]

theorem specPHCountList_append {xs ys : List (List Char)} {m n : Nat}
    (hx : specPHCountList xs = .ok m) (hy : specPHCountList ys = .ok n) :
    specPHCountList (xs ++ ys) = .ok (m + n) := by
  induction xs generalizing m with
  | nil =>
    simp only [specPHCountList, Except.ok.injEq] at hx
    subst hx
    simpa using hy
  | cons x t ih =>
    simp only [specPHCountList] at hx ⊢
    cases hp : parse x with
    | error e => rw [hp] at hx; exact Except.noConfusion hx
    | ok segs =>
      rw [hp] at hx
      simp only at hx
      cases ht : specPHCountList t with
      | error e => rw [ht] at hx; exact Except.noConfusion hx
      | ok k =>
        rw [ht] at hx
        simp only [Except.ok.injEq] at hx
        subst hx
        simp only [List.append_eq]
        rw [ih ht]
        simp [Nat.add_assoc]

theorem checkContentsList_spec {l : List (List Char)} {ids : List (List Char)}
    (h : checkContentsList l = .ok ids) :
    specIdentsList l = .ok ids ∧ specPHCountList l = .ok ids.length := by
  induction l generalizing ids with
  | nil =>
    simp only [checkContentsList, Except.ok.injEq] at h
    subst h
    exact ⟨rfl, rfl⟩
  | cons c t ih =>
    simp only [checkContentsList] at h
    cases hc : checkContent c with
    | error e => rw [hc] at h; exact Except.noConfusion h
    | ok cids =>
      rw [hc] at h
      simp only at h
      cases ht : checkContentsList t with
      | error e => rw [ht] at h; exact Except.noConfusion h
      | ok tids =>
        rw [ht] at h
        simp only [Except.ok.injEq] at h
        subst h
        obtain ⟨segs, hp, hids, hlen⟩ := checkContent_ids hc
        obtain ⟨ih1, ih2⟩ := ih ht
        constructor
        · simp only [specIdentsList, hp, ih1, hids]
        · simp only [specPHCountList, hp, ih2]
          rw [List.length_append, hlen]

theorem checkContentsList_ok_parses {l : List (List Char)}
    {ids : List (List Char)} (h : checkContentsList l = .ok ids) :
    ∀ src ∈ l, ∃ segs, parse src = .ok segs := by
  induction l generalizing ids with
  | nil => simp
  | cons c t ih =>
    simp only [checkContentsList] at h
    cases hc : checkContent c with
    | error e => rw [hc] at h; exact Except.noConfusion h
    | ok cids =>
      rw [hc] at h
      simp only at h
      cases ht : checkContentsList t with
      | error e => rw [ht] at h; exact Except.noConfusion h
      | ok tids =>
        intro src hsrc
        rcases List.mem_cons.mp hsrc with rfl | hmem
        · obtain ⟨segs, hp, -, -⟩ := checkContent_ids hc
          exact ⟨segs, hp⟩
        · exact ih ht src hmem

theorem checkContent_err {src : List Char} {e : ParseError}
    (h : checkContent src = .error e) : parse src = .error e := by
  simp only [checkContent] at h
  cases hp : parse src with
  | error e' =>
    rw [hp] at h
    simp only [Except.error.injEq] at h
    subst h
    rfl
  | ok segs => rw [hp] at h; exact Except.noConfusion h

theorem checkContentsList_err {l : List (List Char)} {e : ParseError}
    (h : checkContentsList l = .error e) :
    ∃ src ∈ l, parse src = .error e := by
  induction l with
  | nil => exact Except.noConfusion h
  | cons c t ih =>
    simp only [checkContentsList] at h
    cases hc : checkContent c with
    | error e' =>
      rw [hc] at h
      simp only [Except.error.injEq] at h
      subst h
      exact ⟨c, by simp, checkContent_err hc⟩
    | ok cids =>
      rw [hc] at h
      simp only at h
      cases ht : checkContentsList t with
      | error e' =>
        rw [ht] at h
        simp only [Except.error.injEq] at h
        subst h
        obtain ⟨src, hmem, hp⟩ := ih ht
        exact ⟨src, by simp [hmem], hp⟩
      | ok tids => rw [ht] at h; exact Except.noConfusion h

theorem interpolateContent_err {src : List Char} {ctx : Context}
    {e : ParseError} (h : interpolateContent src ctx = .error e) :
    parse src = .error e := by
  simp only [interpolateContent] at h
  cases hp : parse src with
  | error e' =>
    rw [hp] at h
    simp only [Except.error.injEq] at h
    subst h
    rfl
  | ok segs => rw [hp] at h; exact Except.noConfusion h

theorem interpolateContent_ok {src : List Char} {ctx : Context}
    {out : List Char} (h : interpolateContent src ctx = .ok out) :
    ∃ segs, parse src = .ok segs ∧
      out = (segs.map (interpolateSeg ctx)).flatten := by
  simp only [interpolateContent] at h
  cases hp : parse src with
  | error e => rw [hp] at h; exact Except.noConfusion h
  | ok segs =>
    rw [hp] at h
    simp only [Except.ok.injEq] at h
    exact ⟨segs, rfl, h.symm⟩

theorem interpolateContentsList_err {l : List (List Char)} {ctx : Context}
    {e : ParseError} (h : interpolateContentsList l ctx = .error e) :
    ∃ src ∈ l, parse src = .error e := by
  induction l with
  | nil => exact Except.noConfusion h
  | cons c t ih =>
    simp only [interpolateContentsList] at h
    cases hc : interpolateContent c ctx with
    | error e' =>
      rw [hc] at h
      simp only [Except.error.injEq] at h
      subst h
      exact ⟨c, by simp, interpolateContent_err hc⟩
    | ok out =>
      rw [hc] at h
      simp only at h
      cases ht : interpolateContentsList t ctx with
      | error e' =>
        rw [ht] at h
        simp only [Except.error.injEq] at h
        subst h
        obtain ⟨src, hmem, hp⟩ := ih ht
        exact ⟨src, by simp [hmem], hp⟩
      | ok outs => rw [ht] at h; exact Except.noConfusion h

theorem interpolateContentsList_ok_parses {l : List (List Char)}
    {ctx : Context} {outs : List (List Char)}
    (h : interpolateContentsList l ctx = .ok outs) :
    ∀ src ∈ l, ∃ segs, parse src = .ok segs := by
  induction l generalizing outs with
  | nil => simp
  | cons c t ih =>
    simp only [interpolateContentsList] at h
    cases hc : interpolateContent c ctx with
    | error e => rw [hc] at h; exact Except.noConfusion h
    | ok out =>
      rw [hc] at h
      simp only at h
      cases ht : interpolateContentsList t ctx with
      | error e => rw [ht] at h; exact Except.noConfusion h
      | ok outs' =>
        intro src hsrc
        rcases List.mem_cons.mp hsrc with rfl | hmem
        · obtain ⟨segs, hp, -⟩ := interpolateContent_ok hc
          exact ⟨segs, hp⟩
        · exact ih ht src hmem

theorem interpolateContentsList_length {l : List (List Char)} {ctx : Context}
    {outs : List (List Char)} (h : interpolateContentsList l ctx = .ok outs) :
    outs.length = l.length := by
  induction l generalizing outs with
  | nil =>
    simp only [interpolateContentsList, Except.ok.injEq] at h
    subst h
    rfl
  | cons c t ih =>
    simp only [interpolateContentsList] at h
    cases hc : interpolateContent c ctx with
    | error e => rw [hc] at h; exact Except.noConfusion h
    | ok out =>
      rw [hc] at h
      simp only at h
      cases ht : interpolateContentsList t ctx with
      | error e => rw [ht] at h; exact Except.noConfusion h
      | ok outs' =>
        rw [ht] at h
        simp only [Except.ok.injEq] at h
        subst h
        simp [ih ht]

mutual
theorem interpolateStory_shape (s : Story) :
    ∀ ctx t, interpolateStory s ctx = .ok t → shapeEq s t = true := by
  obtain ⟨title, parts, contents⟩ := s
  intro ctx t h
  simp only [interpolateStory] at h
  cases hc : interpolateContentsList contents ctx with
  | error e => rw [hc] at h; exact Except.noConfusion h
  | ok contents' =>
    rw [hc] at h
    simp only at h
    cases hp : interpolateParts parts ctx with
    | error e => rw [hp] at h; exact Except.noConfusion h
    | ok parts' =>
      rw [hp] at h
      simp only [Except.ok.injEq] at h
      subst h
      simp only [shapeEq, Bool.and_eq_true, beq_iff_eq]
      exact ⟨⟨trivial, (interpolateContentsList_length hc).symm⟩,
        interpolateParts_shape parts ctx parts' hp⟩

theorem interpolateParts_shape (ps : Parts) :
    ∀ ctx qs, interpolateParts ps ctx = .ok qs → shapeEqParts ps qs = true := by
  cases ps with
  | nil =>
    intro ctx qs h
    simp only [interpolateParts, Except.ok.injEq] at h
    subst h
    rfl
  | pcons p rest =>
    intro ctx qs h
    simp only [interpolateParts] at h
    cases hp : interpolateStory p ctx with
    | error e => rw [hp] at h; exact Except.noConfusion h
    | ok p' =>
      rw [hp] at h
      simp only at h
      cases hr : interpolateParts rest ctx with
      | error e => rw [hr] at h; exact Except.noConfusion h
      | ok rest' =>
        rw [hr] at h
        simp only [Except.ok.injEq] at h
        subst h
        simp only [shapeEqParts, Bool.and_eq_true]
        exact ⟨interpolateStory_shape p ctx p' hp,
          interpolateParts_shape rest ctx rest' hr⟩
end

mutual
theorem checkStory_spec (s : Story) :
    ∀ ids, checkStory s = .ok ids →
      specIdentsList (storyContents s) = .ok ids ∧
        specPHCountList (storyContents s) = .ok ids.length := by
  obtain ⟨title, parts, contents⟩ := s
  intro ids h
  simp only [checkStory] at h
  cases hc : checkContentsList contents with
  | error e => rw [hc] at h; exact Except.noConfusion h
  | ok own =>
    rw [hc] at h
    simp only at h
    cases hp : checkParts parts with
    | error e => rw [hp] at h; exact Except.noConfusion h
    | ok sub =>
      rw [hp] at h
      simp only [Except.ok.injEq] at h
      subst h
      obtain ⟨h1, h2⟩ := checkContentsList_spec hc
      obtain ⟨h3, h4⟩ := checkParts_spec parts sub hp
      simp only [storyContents]
      exact ⟨specIdentsList_append h1 h3, by
        simpa using specPHCountList_append h2 h4⟩

theorem checkParts_spec (ps : Parts) :
    ∀ ids, checkParts ps = .ok ids →
      specIdentsList (partsContents ps) = .ok ids ∧
        specPHCountList (partsContents ps) = .ok ids.length := by
  cases ps with
  | nil =>
    intro ids h
    simp only [checkParts, Except.ok.injEq] at h
    subst h
    exact ⟨rfl, rfl⟩
  | pcons p rest =>
    intro ids h
    simp only [checkParts] at h
    cases hp : checkStory p with
    | error e => rw [hp] at h; exact Except.noConfusion h
    | ok own =>
      rw [hp] at h
      simp only at h
      cases hr : checkParts rest with
      | error e => rw [hr] at h; exact Except.noConfusion h
      | ok sub =>
        rw [hr] at h
        simp only [Except.ok.injEq] at h
        subst h
        obtain ⟨h1, h2⟩ := checkStory_spec p own hp
        obtain ⟨h3, h4⟩ := checkParts_spec rest sub hr
        simp only [partsContents]
        exact ⟨specIdentsList_append h1 h3, by
          simpa using specPHCountList_append h2 h4⟩
end

mutual
theorem checkStory_ok_parses (s : Story) :
    ∀ ids, checkStory s = .ok ids →
      ∀ src ∈ storyContents s, ∃ segs, parse src = .ok segs := by
  obtain ⟨title, parts, contents⟩ := s
  intro ids h
  simp only [checkStory] at h
  cases hc : checkContentsList contents with
  | error e => rw [hc] at h; exact Except.noConfusion h
  | ok own =>
    rw [hc] at h
    simp only at h
    cases hp : checkParts parts with
    | error e => rw [hp] at h; exact Except.noConfusion h
    | ok sub =>
      intro src hsrc
      simp only [storyContents, List.mem_append] at hsrc
      rcases hsrc with hmem | hmem
      · exact checkContentsList_ok_parses hc src hmem
      · exact checkParts_ok_parses parts sub hp src hmem

theorem checkParts_ok_parses (ps : Parts) :
    ∀ ids, checkParts ps = .ok ids →
      ∀ src ∈ partsContents ps, ∃ segs, parse src = .ok segs := by
  cases ps with
  | nil =>
    intro ids h src hsrc
    simp [partsContents] at hsrc
  | pcons p rest =>
    intro ids h
    simp only [checkParts] at h
    cases hp : checkStory p with
    | error e => rw [hp] at h; exact Except.noConfusion h
    | ok own =>
      rw [hp] at h
      simp only at h
      cases hr : checkParts rest with
      | error e => rw [hr] at h; exact Except.noConfusion h
      | ok sub =>
        intro src hsrc
        simp only [partsContents, List.mem_append] at hsrc
        rcases hsrc with hmem | hmem
        · exact checkStory_ok_parses p own hp src hmem
        · exact checkParts_ok_parses rest sub hr src hmem
end

mutual
theorem checkStory_err (s : Story) :
    ∀ e, checkStory s = .error e →
      ∃ src ∈ storyContents s, parse src = .error e := by
  obtain ⟨title, parts, contents⟩ := s
  intro e h
  simp only [checkStory] at h
  cases hc : checkContentsList contents with
  | error e' =>
    rw [hc] at h
    simp only [Except.error.injEq] at h
    subst h
    obtain ⟨src, hmem, hp⟩ := checkContentsList_err hc
    exact ⟨src, by simp [storyContents, hmem], hp⟩
  | ok own =>
    rw [hc] at h
    simp only at h
    cases hp : checkParts parts with
    | error e' =>
      rw [hp] at h
      simp only [Except.error.injEq] at h
      subst h
      obtain ⟨src, hmem, hps⟩ := checkParts_err parts e' hp
      exact ⟨src, by simp [storyContents, hmem], hps⟩
    | ok sub => rw [hp] at h; exact Except.noConfusion h

theorem checkParts_err (ps : Parts) :
    ∀ e, checkParts ps = .error e →
      ∃ src ∈ partsContents ps, parse src = .error e := by
  cases ps with
  | nil =>
    intro e h
    exact Except.noConfusion h
  | pcons p rest =>
    intro e h
    simp only [checkParts] at h
    cases hp : checkStory p with
    | error e' =>
      rw [hp] at h
      simp only [Except.error.injEq] at h
      subst h
      obtain ⟨src, hmem, hps⟩ := checkStory_err p e' hp
      exact ⟨src, by simp [partsContents, hmem], hps⟩
    | ok own =>
      rw [hp] at h
      simp only at h
      cases hr : checkParts rest with
      | error e' =>
        rw [hr] at h
        simp only [Except.error.injEq] at h
        subst h
        obtain ⟨src, hmem, hps⟩ := checkParts_err rest e' hr
        exact ⟨src, by simp [partsContents, hmem], hps⟩
      | ok sub => rw [hr] at h; exact Except.noConfusion h
end

mutual
theorem interpolateStory_err (s : Story) :
    ∀ ctx e, interpolateStory s ctx = .error e →
      ∃ src ∈ storyContents s, parse src = .error e := by
  obtain ⟨title, parts, contents⟩ := s
  intro ctx e h
  simp only [interpolateStory] at h
  cases hc : interpolateContentsList contents ctx with
  | error e' =>
    rw [hc] at h
    simp only [Except.error.injEq] at h
    subst h
    obtain ⟨src, hmem, hp⟩ := interpolateContentsList_err hc
    exact ⟨src, by simp [storyContents, hmem], hp⟩
  | ok contents' =>
    rw [hc] at h
    simp only at h
    cases hp : interpolateParts parts ctx with
    | error e' =>
      rw [hp] at h
      simp only [Except.error.injEq] at h
      subst h
      obtain ⟨src, hmem, hps⟩ := interpolateParts_err parts ctx e' hp
      exact ⟨src, by simp [storyContents, hmem], hps⟩
    | ok parts' => rw [hp] at h; exact Except.noConfusion h

theorem interpolateParts_err (ps : Parts) :
    ∀ ctx e, interpolateParts ps ctx = .error e →
      ∃ src ∈ partsContents ps, parse src = .error e := by
  cases ps with
  | nil =>
    intro ctx e h
    exact Except.noConfusion h
  | pcons p rest =>
    intro ctx e h
    simp only [interpolateParts] at h
    cases hp : interpolateStory p ctx with
    | error e' =>
      rw [hp] at h
      simp only [Except.error.injEq] at h
      subst h
      obtain ⟨src, hmem, hps⟩ := interpolateStory_err p ctx e' hp
      exact ⟨src, by simp [partsContents, hmem], hps⟩
    | ok p' =>
      rw [hp] at h
      simp only at h
      cases hr : interpolateParts rest ctx with
      | error e' =>
        rw [hr] at h
        simp only [Except.error.injEq] at h
        subst h
        obtain ⟨src, hmem, hps⟩ := interpolateParts_err rest ctx e' hr
        exact ⟨src, by simp [partsContents, hmem], hps⟩
      | ok rest' => rw [hr] at h; exact Except.noConfusion h
end

mutual
theorem interpolateStory_ok_parses (s : Story) :
    ∀ ctx t, interpolateStory s ctx = .ok t →
      ∀ src ∈ storyContents s, ∃ segs, parse src = .ok segs := by
  obtain ⟨title, parts, contents⟩ := s
  intro ctx t h
  simp only [interpolateStory] at h
  cases hc : interpolateContentsList contents ctx with
  | error e => rw [hc] at h; exact Except.noConfusion h
  | ok contents' =>
    rw [hc] at h
    simp only at h
    cases hp : interpolateParts parts ctx with
    | error e => rw [hp] at h; exact Except.noConfusion h
    | ok parts' =>
      intro src hsrc
      simp only [storyContents, List.mem_append] at hsrc
      rcases hsrc with hmem | hmem
      · exact interpolateContentsList_ok_parses hc src hmem
      · exact interpolateParts_ok_parses parts ctx parts' hp src hmem

theorem interpolateParts_ok_parses (ps : Parts) :
    ∀ ctx qs, interpolateParts ps ctx = .ok qs →
      ∀ src ∈ partsContents ps, ∃ segs, parse src = .ok segs := by
  cases ps with
  | nil =>
    intro ctx qs h src hsrc
    simp [partsContents] at hsrc
  | pcons p rest =>
    intro ctx qs h
    simp only [interpolateParts] at h
    cases hp : interpolateStory p ctx with
    | error e => rw [hp] at h; exact Except.noConfusion h
    | ok p' =>
      rw [hp] at h
      simp only at h
      cases hr : interpolateParts rest ctx with
      | error e => rw [hr] at h; exact Except.noConfusion h
      | ok rest' =>
        intro src hsrc
        simp only [partsContents, List.mem_append] at hsrc
        rcases hsrc with hmem | hmem
        · exact interpolateStory_ok_parses p ctx p' hp src hmem
        · exact interpolateParts_ok_parses rest ctx rest' hr src hmem
end

/-- C1 (counterexample): the claim says a type-incompatible dotted path
resolves to the empty string, but with context `a ↦ "x"` the placeholder
`\x7b\x7b a.b \x7d\x7d` interpolates to `"x"`, not `""`: the resolution
loop keeps a non-`Object` value instead of turning it into a miss. -/
theorem c1_counterexample :
    interpolateContent srcAB ctxAString = .ok ['x'] ∧
      (Except.ok ['x'] : Except ParseError (List Char)) ≠ .ok [] :=
  ⟨rfl, by simp⟩

/-- C1 (amended): once a path component resolves to a non-`Object` value,
the resolution loop retains that value through all remaining components
and its string rendering is substituted; a missing value stays missing;
the empty string is substituted exactly when resolution yields no value. -/
theorem c1_resolution :
    (∀ d : Data, d.isObject = false →
      ∀ ids, resolveTail (some d) ids = some d)
    ∧ (∀ ids, resolveTail none ids = none)
    ∧ (∀ (ctx : Context) (path : List (List Char)) (ident raw : List Char)
        (d : Data), resolvePath ctx path = some d →
        interpolateSeg ctx (.placeholder path ident raw) = d.render)
    ∧ (∀ (ctx : Context) (path : List (List Char)) (ident raw : List Char),
        resolvePath ctx path = none →
        interpolateSeg ctx (.placeholder path ident raw) = []) := by
  refine ⟨fun d h ids => resolveTail_nonObject h ids, resolveTail_none,
    ?_, ?_⟩
  · intro ctx path ident raw d h
    simp [interpolateSeg, h]
  · intro ctx path ident raw h
    simp [interpolateSeg, h]

/-- Witness for `c1_resolution`: with context `a ↦ "x"`, the placeholder
with path `a.b` renders the retained string value `"x"`. -/
theorem c1_resolution_witness :
    interpolateSeg ctxAString (.placeholder [['a'], ['b']] ['a', '.', 'b'] []) =
      ['x'] :=
  c1_resolution.2.2.1 ctxAString [['a'], ['b']] ['a', '.', 'b'] []
    (.str ['x']) rfl

/-- C2: when `check` succeeds, its output is exactly the full dotted path
(components joined by dots, duplicates preserved) of every placeholder
segment over all content sources in depth-first left-to-right order, and
its length is the total number of placeholder segments in the tree. -/
theorem c2_check_complete (s : Story) (ids : List (List Char))
    (h : checkStory s = .ok ids) :
    specIdentsList (storyContents s) = .ok ids ∧
      specPHCountList (storyContents s) = .ok ids.length :=
  checkStory_spec s ids h

/-- Witness for `c2_check_complete` on a concrete two-level story with a
duplicated identifier. -/
theorem c2_check_complete_witness :
    specIdentsList (storyContents storyW) = .ok [['x'], ['x']] ∧
      specPHCountList (storyContents storyW) = .ok 2 :=
  c2_check_complete storyW [['x'], ['x']] rfl

/-- C3: if any content source anywhere in the tree fails to parse, then
`check` and `interpolate` (under every context) fail for the whole
invocation, and the returned error is the parse error of one of the tree's
content sources, unchanged. -/
theorem c3_abort_on_error (s : Story)
    (hfail : ∃ src ∈ storyContents s, ∃ e, parse src = .error e) :
    (∃ e, checkStory s = .error e ∧
      ∃ src ∈ storyContents s, parse src = .error e)
    ∧ ∀ ctx, ∃ e, interpolateStory s ctx = .error e ∧
        ∃ src ∈ storyContents s, parse src = .error e := by
  constructor
  · cases hcs : checkStory s with
    | error e => exact ⟨e, rfl, checkStory_err s e hcs⟩
    | ok ids =>
      obtain ⟨src, hmem, e, hp⟩ := hfail
      obtain ⟨segs, hps⟩ := checkStory_ok_parses s ids hcs src hmem
      rw [hp] at hps
      exact Except.noConfusion hps
  · intro ctx
    cases his : interpolateStory s ctx with
    | error e => exact ⟨e, rfl, interpolateStory_err s ctx e his⟩
    | ok t =>
      obtain ⟨src, hmem, e, hp⟩ := hfail
      obtain ⟨segs, hps⟩ := interpolateStory_ok_parses s ctx t his src hmem
      rw [hp] at hps
      exact Except.noConfusion hps

/-- Witness for `c3_abort_on_error`: a story whose only malformed content
sits in a nested sub-part fails wholesale. -/
theorem c3_abort_on_error_witness :
    (∃ e, checkStory storyBad = .error e ∧
      ∃ src ∈ storyContents storyBad, parse src = .error e)
    ∧ ∀ ctx, ∃ e, interpolateStory storyBad ctx = .error e ∧
        ∃ src ∈ storyContents storyBad, parse src = .error e :=
  c3_abort_on_error storyBad
    ⟨srcBad, by decide, ⟨1, 1, "expected identifier"⟩, rfl⟩

/-- C4: whenever `interpolate` succeeds, the output tree has the same
shape as the input: the same title at every node and the same number and
order of parts and contents, recursively. -/
theorem c4_shape_preserved (s : Story) (ctx : Context) (t : Story)
    (h : interpolateStory s ctx = .ok t) : shapeEq s t = true :=
  interpolateStory_shape s ctx t h

/-- Witness for `c4_shape_preserved` on a concrete two-level story. -/
theorem c4_shape_preserved_witness : shapeEq storyW storyWOut = true :=
  c4_shape_preserved storyW emptyContext storyWOut rfl

/-- C5: against the empty context every placeholder is unresolvable, so
build-mode interpolation of any well-formed text unit keeps the literal
spans in order and replaces every placeholder span by the empty string; in
particular `\x7b\x7b a.b.c \x7d\x7d` builds to `""` and checks to
`["a.b.c"]`. -/
theorem c5_empty_context :
    (∀ src segs, parse src = .ok segs →
      interpolateContent src emptyContext = .ok (segs.map Seg.litText).flatten)
    ∧ interpolateContent srcABC emptyContext = .ok []
    ∧ checkContent srcABC = .ok [['a', '.', 'b', '.', 'c']] := by
  refine ⟨?_, rfl, rfl⟩
  intro src segs h
  simp only [interpolateContent, h]
  congr 1
  exact congrArg List.flatten
    (List.map_congr_left fun sg _ => interpolateSeg_empty sg)

/-- Witness for `c5_empty_context` on `hi \x7b\x7b x \x7d\x7d!`. -/
theorem c5_empty_context_witness :
    interpolateContent srcMixed emptyContext =
      .ok (([Seg.literal ['h', 'i', ' '],
        Seg.placeholder [['x']] ['x'] srcX,
        Seg.literal ['!']].map Seg.litText).flatten) :=
  c5_empty_context.1 srcMixed
    [Seg.literal ['h', 'i', ' '], Seg.placeholder [['x']] ['x'] srcX,
      Seg.literal ['!']] rfl

/-- C6: for every well-formed text unit, concatenating the parsed
segments in order — literals verbatim, placeholders as their original
raw spelling — reconstructs the input exactly. -/
theorem c6_concat (src : List Char) (segs : List Seg)
    (h : parse src = .ok segs) : (segs.map Seg.text).flatten = src :=
  parseSegs_text (src.length + 1) src (1, 1) segs h

/-- Witness for `c6_concat` on `hi \x7b\x7b x \x7d\x7d!`. -/
theorem c6_concat_witness :
    (([Seg.literal ['h', 'i', ' '],
      Seg.placeholder [['x']] ['x'] srcX,
      Seg.literal ['!']].map Seg.text).flatten) = srcMixed :=
  c6_concat srcMixed
    [Seg.literal ['h', 'i', ' '], Seg.placeholder [['x']] ['x'] srcX,
      Seg.literal ['!']] rfl

/-- C7: the parser rejects `\x7b\x7b \x7d\x7d`, `\x7b\x7b 32 \x7d\x7d`
and `\x7b\x7b name..long \x7d\x7d`, and accepts `\x7b\x7b name32 \x7d\x7d`,
`\x7b\x7b name_32 \x7d\x7d` and `\x7b\x7b name_32.long \x7d\x7d`. -/
theorem c7_examples :
    parseAccepts srcBad = false ∧ parseAccepts src32 = false ∧
    parseAccepts srcDotsBad = false ∧ parseAccepts srcName32 = true ∧
    parseAccepts srcNameU32 = true ∧ parseAccepts srcNameU32Long = true :=
  ⟨rfl, rfl, rfl, rfl, rfl, rfl⟩

/-- C8: every parse failure carries a 1-based line, a 1-based column and a
non-empty human-readable message. -/
theorem c8_error_location (src : List Char) (e : ParseError)
    (h : parse src = .error e) :
    1 ≤ e.line ∧ 1 ≤ e.col ∧ e.message ≠ "" :=
  parseSegs_err (src.length + 1) src (1, 1) e h (le_refl 1) (le_refl 1)

/-- Witness for `c8_error_location` on the rejected input
`\x7b\x7b \x7d\x7d`. -/
theorem c8_error_location_witness :
    1 ≤ (ParseError.mk 1 1 "expected identifier").line ∧
      1 ≤ (ParseError.mk 1 1 "expected identifier").col ∧
      (ParseError.mk 1 1 "expected identifier").message ≠ "" :=
  c8_error_location srcBad ⟨1, 1, "expected identifier"⟩ rfl

/-- C9: a text unit with no `\x7b\x7b` opener interpolates to itself,
character for character, under every context. -/
theorem c9_literal_roundtrip (src : List Char) (h : hasOpen src = false)
    (ctx : Context) : interpolateContent src ctx = .ok src := by
  simp only [interpolateContent, parse_noOpen h]
  cases src with
  | nil => rfl
  | cons c t => simp [interpolateSeg]

/-- Witness for `c9_literal_roundtrip` on the literal `hi`. -/
theorem c9_literal_roundtrip_witness :
    interpolateContent srcLit ctxAString = .ok srcLit :=
  c9_literal_roundtrip srcLit rfl ctxAString

/-- C10: at every node, both modes process the node's own contents before
its sub-parts: a successful `check` output is the node's own identifiers
followed by the sub-parts' identifiers, and an error in the node's own
contents aborts `check`/`interpolate` before any sub-part is consulted. -/
theorem c10_contents_before_parts (title : List Char) (parts : Parts)
    (contents : List (List Char)) :
    (∀ ids, checkStory (.mk title parts contents) = .ok ids →
      ∃ own sub, ids = own ++ sub ∧ specIdentsList contents = .ok own ∧
        specIdentsList (partsContents parts) = .ok sub)
    ∧ (∀ e, checkContentsList contents = .error e →
        checkStory (.mk title parts contents) = .error e)
    ∧ (∀ ctx e, interpolateContentsList contents ctx = .error e →
        interpolateStory (.mk title parts contents) ctx = .error e) := by
  refine ⟨?_, ?_, ?_⟩
  · intro ids h
    simp only [checkStory] at h
    cases hc : checkContentsList contents with
    | error e => rw [hc] at h; exact Except.noConfusion h
    | ok own =>
      rw [hc] at h
      simp only at h
      cases hp : checkParts parts with
      | error e => rw [hp] at h; exact Except.noConfusion h
      | ok sub =>
        rw [hp] at h
        simp only [Except.ok.injEq] at h
        subst h
        exact ⟨own, sub, rfl, (checkContentsList_spec hc).1,
          (checkParts_spec parts sub hp).1⟩
  · intro e h
    simp [checkStory, h]
  · intro ctx e h
    simp [interpolateStory, h]

/-- Witness for `c10_contents_before_parts` on a concrete two-level
story: the root's own identifier precedes the sub-part's. -/
theorem c10_contents_before_parts_witness :
    ∃ own sub, [['x'], ['x']] = own ++ sub ∧
      specIdentsList [srcMixed, srcLit] = .ok own ∧
      specIdentsList (partsContents (.pcons (.mk ['p'] .nil [srcX]) .nil)) =
        .ok sub :=
  (c10_contents_before_parts ['r'] (.pcons (.mk ['p'] .nil [srcX]) .nil)
    [srcMixed, srcLit]).1 [['x'], ['x']] rfl

end Makinilya
